import Mathlib

/-!
# Verification of the soft-compiler tokenizer

Shallow embedding of `src/tokenizer.rs` (the lexical-analysis core of the
soft-compiler repository) and proofs about it.

Modelling conventions:
* Machine state (`Tokenizer`) is threaded explicitly; the Rust methods that
  mutate `self` become functions `Tokenizer → … → Tokenizer`.
* A Rust `panic!` / `.expect(…)` (process abort) is modelled as `Option.none`
  respectively a dedicated `panicked` result constructor.
* The scan loop of `tokenize` is run on explicit fuel; sufficiency of the
  fuel `ptr.length + 1` is itself proved (`tokenize_terminates`), so the
  fuel is an encoding artefact, not a semantic restriction.
* Rust `char::is_alphabetic` is modelled on the ASCII plane (`Char.isAlpha`);
  no input considered here contains a non-ASCII letter, and the scan-loop
  invariants proved below do not depend on which characters count as
  alphabetic.
-/

namespace SoftCompiler

set_option autoImplicit false

/-- Keywords of the language (`enum Keyword` in src/tokenizer.rs). -/
inductive Keyword where
  | Return
  | Int
deriving DecidableEq

/-- Literal values (`enum Value` in src/tokenizer.rs): a signed 32-bit
integer, modelled as `ℤ` (the i32 range is enforced where the value is
produced), or a byte (unused by the scanner). -/
inductive Value where
  | Int (v : ℤ)
  | Char (b : ℕ)
deriving DecidableEq

/-- Token kinds (`enum TokenType` in src/tokenizer.rs). -/
inductive TokenType where
  | Keyword (k : SoftCompiler.Keyword)
  | Identifier (s : String)
  | Literal (v : Value)
  | OpenParentheses
  | CloseParentheses
  | OpenBrace
  | CloseBrace
  | Semicolon
  | Whitespace
  | Minus
  | Bitwise
  | LogicalNegation
  | Addition
  | Multiplication
  | Division
deriving DecidableEq

/-- Modelled from the spec: the unary operator enumeration of the downstream
parser (`crate::data::UnOp`, whose defining file is not part of the sources
here); its variants are exactly those referenced by
`TokenType::to_unary_operator` in src/tokenizer.rs. -/
inductive UnOp where
  | Negation
  | Bitwise
  | LogicalNegation
deriving DecidableEq

/-- Modelled from the spec: the binary operator enumeration of the downstream
parser (`crate::data::BiOp`); variants exactly those referenced by
`TokenType::to_binary_operator` in src/tokenizer.rs. -/
inductive BiOp where
  | Minus
  | Addition
  | Multiplication
  | Division
deriving DecidableEq

/-- `TokenType::to_unary_operator`. The `panic!("critical error")` default
arm of the Rust `match` is modelled as `none`. -/
def TokenType.to_unary_operator : TokenType → Option UnOp
  | TokenType.Minus => some UnOp.Negation
  | TokenType.Bitwise => some UnOp.Bitwise
  | TokenType.LogicalNegation => some UnOp.LogicalNegation
  | _ => none

/-- `TokenType::to_binary_operator`. The `panic!("critical error")` default
arm is modelled as `none`. -/
def TokenType.to_binary_operator : TokenType → Option BiOp
  | TokenType.Minus => some BiOp.Minus
  | TokenType.Addition => some BiOp.Addition
  | TokenType.Multiplication => some BiOp.Multiplication
  | TokenType.Division => some BiOp.Division
  | _ => none

/-- `TokenType::is_unary_operator`. -/
def TokenType.is_unary_operator (t : TokenType) : Bool :=
  t == TokenType.Minus || t == TokenType.Bitwise || t == TokenType.LogicalNegation

/-- `TokenType::is_binary_operator`. -/
def TokenType.is_binary_operator (t : TokenType) : Bool :=
  t == TokenType.Minus || t == TokenType.Addition ||
    t == TokenType.Multiplication || t == TokenType.Division

/-- A produced token (`struct Token` in src/tokenizer.rs). -/
structure Token where
  line : ℕ
  position : ℕ
  token : TokenType
deriving DecidableEq

/-- Character categories (`enum CharacterType` in src/tokenizer.rs). -/
inductive CharacterType where
  | Whitespace
  | Alphabetic
  | Numeric
  | NewLine
  | NonAlphabetic (c : Char)
deriving DecidableEq

/-- Scanner state (`struct Tokenizer` in src/tokenizer.rs). The redundant
`file : String` field (the raw text the char vector was built from, unused
by scanning) is not carried. -/
structure Tokenizer where
  ptr : List Char
  position : ℕ
  line : ℕ
  tokens : List Token
deriving DecidableEq

/-- Modelled from the spec: `KeywordMap` lives in src/lexer.rs, which is not
among the sources; the spec only requires a mapping from text to `Keyword`
whose lookup returns "not found" for unknown text. -/
abbrev KeywordMap := String → Option Keyword

/-- The keyword table the spec requires as a minimum: "return" to Return and
"int" to Int. -/
def defaultKeywordMap : KeywordMap := fun s =>
  if s = "return" then some Keyword.Return
  else if s = "int" then some Keyword.Int
  else none

/-- Rust `char::is_alphabetic`, modelled on the ASCII plane. -/
def rust_is_alphabetic (c : Char) : Bool := c.isAlpha

/-- The classification closure inside `Tokenizer::get_char_type`, as a pure
function of the inspected character. -/
def classify_char (c : Char) : CharacterType :=
  if rust_is_alphabetic c || c == '_' then CharacterType.Alphabetic
  else if c.isDigit then CharacterType.Numeric
  else if c == ' ' || c == '\t' then CharacterType.Whitespace
  else if c == '\n' || c == '\r' then CharacterType.NewLine
  else CharacterType.NonAlphabetic c

/-- `Tokenizer::get_char_type`: classify the character at
`position + advance_from_pos`, `none` past the end. -/
def Tokenizer.get_char_type (t : Tokenizer) (advance_from_pos : ℕ) :
    Option CharacterType :=
  (t.ptr[t.position + advance_from_pos]?).map classify_char

/-- `Tokenizer::add_token`: append a token stamped with the current cursor
position and line. -/
def Tokenizer.add_token (t : Tokenizer) (token : TokenType) : Tokenizer :=
  { t with tokens := t.tokens ++ [Token.mk t.line t.position token] }

/-- Continuation test of the scan loop in `Tokenizer::get_identifier`:
alphabetic, ASCII digit, or underscore. -/
def ident_cont (c : Char) : Bool :=
  rust_is_alphabetic c || c.isDigit || c == '_'

/-- Length of the longest prefix of a character list all of whose characters
satisfy `cont`. The Rust loops in `get_identifier` and `get_literal` start
a counter `len` at 1 and increment it while `ptr[position + len]` satisfies
the continuation test; that loop computes exactly
`1 + runLength cont (ptr.drop (position + 1))`. -/
def runLength (cont : Char → Bool) : List Char → ℕ
  | [] => 0
  | c :: cs => if cont c then runLength cont cs + 1 else 0

/-- `Tokenizer::get_identifier`: maximal munch an identifier or keyword
lexeme, look the full lexeme up in the keyword table, append the token
(stamped before the advance), then advance the cursor by the lexeme length. -/
def Tokenizer.get_identifier (t : Tokenizer) (keyword_map : KeywordMap) :
    Tokenizer :=
  let len := 1 + runLength ident_cont (t.ptr.drop (t.position + 1))
  let value : String := String.mk ((t.ptr.drop t.position).take len)
  let t' :=
    match keyword_map value with
    | some keyword => t.add_token (TokenType.Keyword keyword)
    | none => t.add_token (TokenType.Identifier value)
  { t' with position := t'.position + len }

/-- Numeric value of a list of ASCII digit characters. -/
def digitsToNat (cs : List Char) : ℕ :=
  cs.foldl (fun acc c => acc * 10 + (c.toNat - 48)) 0

/-- Rust `str::parse::<i32>` on the digit runs produced by `get_literal`:
the characters are ASCII digits with no sign, so parsing succeeds exactly
when the value fits in the i32 range; `none` models `Err`. -/
def parse_i32 (cs : List Char) : Option ℤ :=
  if !cs.isEmpty && cs.all Char.isDigit then
    if digitsToNat cs ≤ 2147483647 then some (digitsToNat cs) else none
  else none

/-- `Tokenizer::get_literal`: maximal munch a digit run, parse it as i32 and
append the literal token (stamped before the advance), then advance by the
run length. The source calls `.expect("Error parsing literal value")` on the
parse result, aborting the process when it fails; that abort is `none`. -/
def Tokenizer.get_literal (t : Tokenizer) : Option Tokenizer :=
  let len := 1 + runLength Char.isDigit (t.ptr.drop (t.position + 1))
  let value := (t.ptr.drop t.position).take len
  match parse_i32 value with
  | some v =>
    let t' := t.add_token (TokenType.Literal (Value.Int v))
    some { t' with position := t'.position + len }
  | none => none

/-- The fixed single-character symbol table: the arms of the `match c` in the
NonAlphabetic branch of `Tokenizer::tokenize`, in source order. -/
def symbolTable : List (Char × TokenType) :=
  [('(', TokenType.OpenParentheses),
   (')', TokenType.CloseParentheses),
   ('{', TokenType.OpenBrace),
   ('}', TokenType.CloseBrace),
   (';', TokenType.Semicolon),
   ('~', TokenType.Bitwise),
   ('!', TokenType.LogicalNegation),
   ('-', TokenType.Minus),
   ('*', TokenType.Multiplication),
   ('/', TokenType.Division),
   ('+', TokenType.Addition)]

/-- Lookup in the single-character symbol table; `none` corresponds to the
empty default arm of the source `match`. -/
def symbolToken (c : Char) : Option TokenType :=
  (symbolTable.find? (fun p => p.1 == c)).map Prod.snd

/-- Result of one iteration of the `tokenize` loop body. -/
inductive StepResult where
  | finished
  | panicked
  | next (t : Tokenizer)
deriving DecidableEq

/-- One iteration of the `while let Some(ch) = self.get_char_type(0)` loop in
`Tokenizer::tokenize`: `finished` when the classifier reports nothing at the
cursor, `panicked` when the literal recognizer aborts, otherwise the updated
state. -/
def Tokenizer.step (t : Tokenizer) (keyword_map : KeywordMap) : StepResult :=
  match t.get_char_type 0 with
  | none => StepResult.finished
  | some CharacterType.Whitespace =>
    StepResult.next { t with position := t.position + 1 }
  | some CharacterType.Alphabetic =>
    StepResult.next (t.get_identifier keyword_map)
  | some CharacterType.Numeric =>
    match t.get_literal with
    | some t' => StepResult.next t'
    | none => StepResult.panicked
  | some CharacterType.NewLine =>
    StepResult.next { t with position := t.position + 1, line := t.line + 1 }
  | some (CharacterType.NonAlphabetic c) =>
    let t' :=
      match symbolToken c with
      | some tok => t.add_token tok
      | none => t
    StepResult.next { t' with position := t'.position + 1 }

/-- Result of a whole scan: the final state, a process abort, or fuel
exhaustion (an artefact of the fuel encoding, proved unreachable). -/
inductive ScanResult where
  | done (t : Tokenizer)
  | panicked
  | outOfFuel
deriving DecidableEq

/-- Whether a scan result is the fuel-exhaustion artefact. -/
def ScanResult.isOutOfFuel : ScanResult → Bool
  | ScanResult.outOfFuel => true
  | _ => false

/-- The token kinds of a completed scan, in order. -/
def ScanResult.tokenKinds : ScanResult → Option (List TokenType)
  | ScanResult.done t => some (t.tokens.map Token.token)
  | _ => none

/-- The `tokenize` loop, iterating `step` on explicit fuel. -/
def tokenizeFuel (keyword_map : KeywordMap) : ℕ → Tokenizer → ScanResult
  | 0, _ => ScanResult.outOfFuel
  | fuel + 1, t =>
    match t.step keyword_map with
    | StepResult.finished => ScanResult.done t
    | StepResult.panicked => ScanResult.panicked
    | StepResult.next t' => tokenizeFuel keyword_map fuel t'

/-- `Tokenizer::tokenize`: run the scan loop to completion. The fuel
`ptr.length + 1` always suffices (see `tokenize_terminates`). -/
def Tokenizer.tokenize (t : Tokenizer) (keyword_map : KeywordMap) : ScanResult :=
  tokenizeFuel keyword_map (t.ptr.length + 1) t

/-- Length of the lexeme recognized at the cursor: the maximal identifier
run for an alphabetic start, the maximal digit run for a numeric start, and
1 for every skipped or single-character lexeme. -/
def lexeme_length (t : Tokenizer) : ℕ :=
  match t.get_char_type 0 with
  | some CharacterType.Alphabetic =>
    1 + runLength ident_cont (t.ptr.drop (t.position + 1))
  | some CharacterType.Numeric =>
    1 + runLength Char.isDigit (t.ptr.drop (t.position + 1))
  | _ => 1

/-- Number of newline characters (line feed or carriage return) in a
character list. -/
def countNewlines (cs : List Char) : ℕ :=
  (cs.filter (fun c => c == '\n' || c == '\r')).length

/-- Characters an all-whitespace input may contain. -/
def is_ws_or_newline (c : Char) : Bool :=
  c == ' ' || c == '\t' || c == '\n' || c == '\r'

/-! ## Basic lemmas about the scanning primitives -/

theorem runLength_le (cont : Char → Bool) (l : List Char) :
    runLength cont l ≤ l.length := by
  induction l with
  | nil => simp [runLength]
  | cons c cs ih =>
    simp only [runLength, List.length_cons]
    split <;> omega

theorem all_take_runLength (cont : Char → Bool) (l : List Char) :
    (l.take (runLength cont l)).all cont = true := by
  induction l with
  | nil => simp
  | cons c cs ih =>
    simp only [runLength]
    split
    · next hc => simpa [List.take_succ_cons, hc] using ih
    · simp

theorem getElem?_runLength {cont : Char → Bool} {l : List Char} {c : Char}
    (h : l[runLength cont l]? = some c) : cont c = false := by
  induction l with
  | nil => simp at h
  | cons c' cs ih =>
    by_cases hc : cont c' = true
    · rw [runLength] at h
      simp only [hc, if_true, List.getElem?_cons_succ] at h
      exact ih h
    · have hc' : cont c' = false := by simpa using hc
      rw [runLength] at h
      simp only [hc', Bool.false_eq_true, if_false, List.getElem?_cons_zero,
        Option.some.injEq] at h
      subst h
      exact hc'

@[simp] theorem add_token_ptr (t : Tokenizer) (tok : TokenType) :
    (t.add_token tok).ptr = t.ptr := rfl

@[simp] theorem add_token_position (t : Tokenizer) (tok : TokenType) :
    (t.add_token tok).position = t.position := rfl

@[simp] theorem add_token_line (t : Tokenizer) (tok : TokenType) :
    (t.add_token tok).line = t.line := rfl

@[simp] theorem add_token_tokens (t : Tokenizer) (tok : TokenType) :
    (t.add_token tok).tokens = t.tokens ++ [Token.mk t.line t.position tok] := rfl

theorem countNewlines_cons (c : Char) (cs : List Char) :
    countNewlines (c :: cs) =
      (if (c == '\n' || c == '\r') = true then 1 else 0) + countNewlines cs := by
  simp only [countNewlines, List.filter_cons]
  split
  · simp [Nat.add_comm]
  · simp

theorem countNewlines_eq_zero {cs : List Char}
    (h : ∀ c ∈ cs, (c == '\n' || c == '\r') = false) : countNewlines cs = 0 := by
  simp only [countNewlines, List.length_eq_zero, List.filter_eq_nil_iff]
  intro c hc
  simp [h c hc]

/-! ## Inversion lemmas for the character classifier -/

theorem classify_char_alpha {c : Char}
    (h : classify_char c = CharacterType.Alphabetic) :
    (rust_is_alphabetic c || c == '_') = true := by
  unfold classify_char at h
  repeat' split at h
  all_goals simp_all

theorem classify_char_numeric {c : Char}
    (h : classify_char c = CharacterType.Numeric) : c.isDigit = true := by
  unfold classify_char at h
  repeat' split at h
  all_goals simp_all

theorem classify_char_ws {c : Char}
    (h : classify_char c = CharacterType.Whitespace) : c = ' ' ∨ c = '\t' := by
  unfold classify_char at h
  repeat' split at h
  all_goals simp_all

theorem classify_char_newline {c : Char}
    (h : classify_char c = CharacterType.NewLine) : c = '\n' ∨ c = '\r' := by
  unfold classify_char at h
  repeat' split at h
  all_goals simp_all

theorem classify_char_nonalpha {c c' : Char}
    (h : classify_char c = CharacterType.NonAlphabetic c') :
    c' = c ∧ (rust_is_alphabetic c || c == '_') = false ∧ c.isDigit = false ∧
      (c == ' ' || c == '\t') = false ∧ (c == '\n' || c == '\r') = false := by
  unfold classify_char at h
  repeat' split at h
  all_goals simp_all

theorem get_char_type_inv {t : Tokenizer} {i : ℕ} {ct : CharacterType}
    (h : t.get_char_type i = some ct) :
    ∃ c, t.ptr[t.position + i]? = some c ∧ classify_char c = ct := by
  unfold Tokenizer.get_char_type at h
  exact Option.map_eq_some'.mp h

theorem get_char_type_lt {t : Tokenizer} {i : ℕ} {ct : CharacterType}
    (h : t.get_char_type i = some ct) : t.position + i < t.ptr.length := by
  rcases get_char_type_inv h with ⟨c, hc, -⟩
  exact (List.getElem?_eq_some.mp hc).1

theorem get_char_type_none {t : Tokenizer} (h : t.ptr.length ≤ t.position) :
    t.get_char_type 0 = none := by
  unfold Tokenizer.get_char_type
  rw [Nat.add_zero, List.getElem?_eq_none h]
  rfl

/-! ## Newline-freeness of lexeme characters -/

theorem ident_cont_not_newline {c : Char} (h : ident_cont c = true) :
    (c == '\n' || c == '\r') = false := by
  cases hb : (c == '\n' || c == '\r') with
  | false => rfl
  | true =>
    exfalso
    rcases (by simpa using hb : c = '\n' ∨ c = '\r') with rfl | rfl <;>
      exact absurd h (by decide)

theorem isDigit_not_newline {c : Char} (h : c.isDigit = true) :
    (c == '\n' || c == '\r') = false := by
  cases hb : (c == '\n' || c == '\r') with
  | false => rfl
  | true =>
    exfalso
    rcases (by simpa using hb : c = '\n' ∨ c = '\r') with rfl | rfl <;>
      exact absurd h (by decide)

theorem alpha_ident_cont {c : Char} (h : (rust_is_alphabetic c || c == '_') = true) :
    ident_cont c = true := by
  unfold ident_cont
  rcases Bool.or_eq_true_iff.mp h with h' | h' <;> simp [h']

/-! ## Unfolding equations for the recognizers -/

theorem get_identifier_eq (t : Tokenizer) (km : KeywordMap) :
    t.get_identifier km =
      { t with
        position :=
          t.position + (1 + runLength ident_cont (t.ptr.drop (t.position + 1))),
        tokens := t.tokens ++ [Token.mk t.line t.position
          (match km (String.mk ((t.ptr.drop t.position).take
              (1 + runLength ident_cont (t.ptr.drop (t.position + 1))))) with
            | some keyword => TokenType.Keyword keyword
            | none => TokenType.Identifier (String.mk ((t.ptr.drop t.position).take
                (1 + runLength ident_cont (t.ptr.drop (t.position + 1))))))] } := by
  simp only [Tokenizer.get_identifier]
  cases hk : km (String.mk ((t.ptr.drop t.position).take
      (1 + runLength ident_cont (t.ptr.drop (t.position + 1))))) <;>
    simp [hk, Tokenizer.add_token]

theorem get_literal_eq (t : Tokenizer) :
    t.get_literal =
      match parse_i32 ((t.ptr.drop t.position).take
          (1 + runLength Char.isDigit (t.ptr.drop (t.position + 1)))) with
      | some v =>
        some { t with
          position :=
            t.position + (1 + runLength Char.isDigit (t.ptr.drop (t.position + 1))),
          tokens := t.tokens ++
            [Token.mk t.line t.position (TokenType.Literal (Value.Int v))] }
      | none => none := by
  simp only [Tokenizer.get_literal]
  cases hp : parse_i32 ((t.ptr.drop t.position).take
      (1 + runLength Char.isDigit (t.ptr.drop (t.position + 1)))) <;>
    simp [hp, Tokenizer.add_token]

theorem symbolToken_ne_whitespace {c : Char} {tok : TokenType}
    (h : symbolToken c = some tok) : tok ≠ TokenType.Whitespace := by
  unfold symbolToken at h
  rcases Option.map_eq_some'.mp h with ⟨p, hp, rfl⟩
  have hm := List.mem_of_find?_eq_some hp
  have hall : ∀ q ∈ symbolTable, q.2 ≠ TokenType.Whitespace := by decide
  exact hall p hm

/-! ## One step of the scan loop -/

theorem drop_position_cons {t : Tokenizer} {c : Char}
    (h : t.ptr[t.position]? = some c) :
    t.ptr.drop t.position = c :: t.ptr.drop (t.position + 1) := by
  rcases List.getElem?_eq_some.mp h with ⟨hlt, hg⟩
  rw [List.drop_eq_getElem_cons hlt, hg]

theorem step_next_spec {t : Tokenizer} {km : KeywordMap} {t' : Tokenizer}
    (h : t.step km = StepResult.next t') :
    t'.ptr = t.ptr ∧
    t'.position = t.position + lexeme_length t ∧
    1 ≤ lexeme_length t ∧
    t.position < t.ptr.length ∧
    t'.line = t.line + countNewlines ((t.ptr.drop t.position).take (lexeme_length t)) ∧
    ∃ rest, t'.tokens = t.tokens ++ rest ∧
      ∀ tok ∈ rest, tok.token ≠ TokenType.Whitespace := by
  unfold Tokenizer.step at h
  cases hc : t.get_char_type 0 with
  | none => rw [hc] at h; cases h
  | some ct =>
    rw [hc] at h
    have hlt : t.position < t.ptr.length := by
      have hl := get_char_type_lt hc
      simpa using hl
    rcases get_char_type_inv hc with ⟨c, hgc, hcl⟩
    rw [Nat.add_zero] at hgc
    have hdrop := drop_position_cons hgc
    cases ct with
    | Whitespace =>
      simp only [StepResult.next.injEq] at h
      subst h
      have hws := classify_char_ws hcl
      have hlex : lexeme_length t = 1 := by simp [lexeme_length, hc]
      refine ⟨rfl, ?_, ?_, hlt, ?_, [], by simp, by simp⟩
      · simp [hlex]
      · simp [hlex]
      · rw [hlex, hdrop, List.take_succ_cons, List.take_zero]
        have h1 : countNewlines [c] = 0 := by
          rcases hws with rfl | rfl <;> decide
        simp [h1]
    | Alphabetic =>
      simp only [StepResult.next.injEq] at h
      subst h
      rw [get_identifier_eq]
      have hlex : lexeme_length t =
          1 + runLength ident_cont (t.ptr.drop (t.position + 1)) := by
        simp [lexeme_length, hc]
      have hcont := alpha_ident_cont (classify_char_alpha hcl)
      have hz : countNewlines ((t.ptr.drop t.position).take (lexeme_length t)) = 0 := by
        rw [hlex, hdrop, Nat.add_comm 1 (runLength ident_cont (t.ptr.drop (t.position + 1))),
          List.take_succ_cons]
        apply countNewlines_eq_zero
        intro x hx
        rcases List.mem_cons.mp hx with rfl | hx'
        · exact ident_cont_not_newline hcont
        · have hall := all_take_runLength ident_cont (t.ptr.drop (t.position + 1))
          rw [List.all_eq_true] at hall
          exact ident_cont_not_newline (hall x hx')
      refine ⟨rfl, by simp [hlex], by omega, hlt, by simp [hz], ?_⟩
      refine ⟨[Token.mk t.line t.position
          (match km (String.mk ((t.ptr.drop t.position).take
              (1 + runLength ident_cont (t.ptr.drop (t.position + 1))))) with
            | some keyword => TokenType.Keyword keyword
            | none => TokenType.Identifier (String.mk ((t.ptr.drop t.position).take
                (1 + runLength ident_cont (t.ptr.drop (t.position + 1))))))],
        by simp, ?_⟩
      intro tok htok
      rcases List.mem_singleton.mp htok with rfl
      simp only [ne_eq]
      cases km (String.mk ((t.ptr.drop t.position).take
          (1 + runLength ident_cont (t.ptr.drop (t.position + 1))))) <;> simp
    | Numeric =>
      cases hl : t.get_literal with
      | none => rw [hl] at h; cases h
      | some t'' =>
        rw [hl] at h
        simp only [StepResult.next.injEq] at h
        subst h
        rw [get_literal_eq] at hl
        cases hp : parse_i32 ((t.ptr.drop t.position).take
            (1 + runLength Char.isDigit (t.ptr.drop (t.position + 1)))) with
        | none => rw [hp] at hl; cases hl
        | some v =>
          rw [hp] at hl
          simp only [Option.some.injEq] at hl
          subst hl
          have hlex : lexeme_length t =
              1 + runLength Char.isDigit (t.ptr.drop (t.position + 1)) := by
            simp [lexeme_length, hc]
          have hdig := classify_char_numeric hcl
          have hz : countNewlines ((t.ptr.drop t.position).take (lexeme_length t)) = 0 := by
            rw [hlex, hdrop,
              Nat.add_comm 1 (runLength Char.isDigit (t.ptr.drop (t.position + 1))),
              List.take_succ_cons]
            apply countNewlines_eq_zero
            intro x hx
            rcases List.mem_cons.mp hx with rfl | hx'
            · exact isDigit_not_newline hdig
            · have hall := all_take_runLength Char.isDigit (t.ptr.drop (t.position + 1))
              rw [List.all_eq_true] at hall
              exact isDigit_not_newline (hall x hx')
          refine ⟨rfl, by simp [hlex], by omega, hlt, by simp [hz], ?_⟩
          exact ⟨[Token.mk t.line t.position (TokenType.Literal (Value.Int v))],
            by simp, by simp⟩
    | NewLine =>
      simp only [StepResult.next.injEq] at h
      subst h
      have hnl := classify_char_newline hcl
      have hlex : lexeme_length t = 1 := by simp [lexeme_length, hc]
      refine ⟨rfl, by simp [hlex], by simp [hlex], hlt, ?_, [], by simp, by simp⟩
      rw [hlex, hdrop, List.take_succ_cons, List.take_zero]
      have h1 : countNewlines [c] = 1 := by
        rcases hnl with rfl | rfl <;> decide
      simp [h1]
    | NonAlphabetic c0 =>
      rcases classify_char_nonalpha hcl with ⟨rfl, -, -, -, hnn⟩
      simp only [StepResult.next.injEq] at h
      have hlex : lexeme_length t = 1 := by simp [lexeme_length, hc]
      have hcn : countNewlines ((t.ptr.drop t.position).take (lexeme_length t)) = 0 := by
        rw [hlex, hdrop, List.take_succ_cons, List.take_zero]
        apply countNewlines_eq_zero
        intro x hx
        rcases List.mem_singleton.mp hx with rfl
        exact hnn
      cases hs : symbolToken c0 with
      | some tok =>
        rw [hs] at h
        simp only [] at h
        subst h
        refine ⟨by simp, by simp [hlex], by simp [hlex], hlt, by simp [hcn], ?_⟩
        refine ⟨[Token.mk t.line t.position tok], by simp, ?_⟩
        intro x hx
        rcases List.mem_singleton.mp hx with rfl
        exact symbolToken_ne_whitespace hs
      | none =>
        rw [hs] at h
        simp only [] at h
        subst h
        exact ⟨rfl, by simp [hlex], by simp [hlex], hlt, by simp [hcn], [], by simp, by simp⟩

/-! ## Whole-scan lemmas -/

theorem tokenizeFuel_done_facts (km : KeywordMap) :
    ∀ (fuel : ℕ) (t t' : Tokenizer), tokenizeFuel km fuel t = ScanResult.done t' →
      t'.ptr = t.ptr ∧ t.position ≤ t'.position ∧ t.line ≤ t'.line ∧
      ∃ rest, t'.tokens = t.tokens ++ rest ∧
        ∀ tok ∈ rest, tok.token ≠ TokenType.Whitespace := by
  intro fuel
  induction fuel with
  | zero => intro t t' h; cases h
  | succ f ih =>
    intro t t' h
    rw [tokenizeFuel] at h
    cases hs : t.step km with
    | finished =>
      rw [hs] at h
      simp only [ScanResult.done.injEq] at h
      subst h
      exact ⟨rfl, le_refl _, le_refl _, [], by simp, by simp⟩
    | panicked => rw [hs] at h; cases h
    | next t'' =>
      rw [hs] at h
      rcases ih t'' t' h with ⟨hp, hpos, hline, rest, htok, hws⟩
      rcases step_next_spec hs with ⟨hp', hpos', -, -, hline', rest', htok', hws'⟩
      refine ⟨hp.trans hp', by omega, by omega, rest' ++ rest, ?_, ?_⟩
      · rw [htok, htok', List.append_assoc]
      · intro tok htokm
        rcases List.mem_append.mp htokm with hm | hm
        · exact hws' tok hm
        · exact hws tok hm

theorem tokenizeFuel_ne_outOfFuel (km : KeywordMap) :
    ∀ (fuel : ℕ) (t : Tokenizer), t.ptr.length - t.position < fuel →
      (tokenizeFuel km fuel t).isOutOfFuel = false := by
  intro fuel
  induction fuel with
  | zero => intro t h; omega
  | succ f ih =>
    intro t h
    rw [tokenizeFuel]
    cases hs : t.step km with
    | finished => rfl
    | panicked => rfl
    | next t'' =>
      rcases step_next_spec hs with ⟨hp, hpos, hone, hlt, -, -⟩
      apply ih
      rw [hp]
      omega

theorem tokenizeFuel_ws_only (km : KeywordMap) :
    ∀ (fuel : ℕ) (t : Tokenizer),
      t.position ≤ t.ptr.length →
      t.ptr.length - t.position < fuel →
      ((t.ptr.drop t.position).all is_ws_or_newline) = true →
      tokenizeFuel km fuel t = ScanResult.done
        { t with
          position := t.ptr.length,
          line := t.line + countNewlines (t.ptr.drop t.position) } := by
  intro fuel
  induction fuel with
  | zero => intro t hle h; omega
  | succ f ih =>
    intro t hle hf hall
    rw [tokenizeFuel]
    rcases Nat.lt_or_ge t.position t.ptr.length with hlt | hge
    · have hgc : ∃ c, t.ptr[t.position]? = some c := by
        rcases List.getElem?_eq_getElem hlt with hg
        exact ⟨t.ptr[t.position], hg⟩
      rcases hgc with ⟨c, hgc⟩
      have hdrop := drop_position_cons hgc
      have hmem : is_ws_or_newline c = true := by
        rw [hdrop, List.all_cons] at hall
        exact (Bool.and_eq_true_iff.mp hall).1
      have hall' : ((t.ptr.drop (t.position + 1)).all is_ws_or_newline) = true := by
        rw [hdrop, List.all_cons] at hall
        exact (Bool.and_eq_true_iff.mp hall).2
      have hct : t.get_char_type 0 = some (classify_char c) := by
        unfold Tokenizer.get_char_type
        rw [Nat.add_zero, hgc]
        rfl
      have hc4 : ((c = ' ' ∨ c = '\t') ∨ c = '\n') ∨ c = '\r' := by
        simpa [is_ws_or_newline] using hmem
      rcases hc4 with ((rfl | rfl) | rfl) | rfl
      · -- c = ' '
        have hstep : t.step km = StepResult.next { t with position := t.position + 1 } := by
          unfold Tokenizer.step
          rw [hct]
          rfl
        simp only [hstep]
        rw [ih { t with position := t.position + 1 } (by simpa using hlt) (by simp; omega)
          (by simpa using hall')]
        have hcount : countNewlines (t.ptr.drop t.position) =
            countNewlines (t.ptr.drop (t.position + 1)) := by
          rw [hdrop, countNewlines_cons]
          simp
        simp [hcount]
      · -- c = '\t'
        have hstep : t.step km = StepResult.next { t with position := t.position + 1 } := by
          unfold Tokenizer.step
          rw [hct]
          rfl
        simp only [hstep]
        rw [ih { t with position := t.position + 1 } (by simpa using hlt) (by simp; omega)
          (by simpa using hall')]
        have hcount : countNewlines (t.ptr.drop t.position) =
            countNewlines (t.ptr.drop (t.position + 1)) := by
          rw [hdrop, countNewlines_cons]
          simp
        simp [hcount]
      · -- c = '\n'
        have hstep : t.step km =
            StepResult.next { t with position := t.position + 1, line := t.line + 1 } := by
          unfold Tokenizer.step
          rw [hct]
          rfl
        simp only [hstep]
        rw [ih { t with position := t.position + 1, line := t.line + 1 }
          (by simpa using hlt) (by simp; omega) (by simpa using hall')]
        have hcount : countNewlines (t.ptr.drop t.position) =
            1 + countNewlines (t.ptr.drop (t.position + 1)) := by
          rw [hdrop, countNewlines_cons]
          simp
        simp only [ScanResult.done.injEq, Tokenizer.mk.injEq, hcount, true_and, and_true]
        omega
      · -- c = '\r'
        have hstep : t.step km =
            StepResult.next { t with position := t.position + 1, line := t.line + 1 } := by
          unfold Tokenizer.step
          rw [hct]
          rfl
        simp only [hstep]
        rw [ih { t with position := t.position + 1, line := t.line + 1 }
          (by simpa using hlt) (by simp; omega) (by simpa using hall')]
        have hcount : countNewlines (t.ptr.drop t.position) =
            1 + countNewlines (t.ptr.drop (t.position + 1)) := by
          rw [hdrop, countNewlines_cons]
          simp
        simp only [ScanResult.done.injEq, Tokenizer.mk.injEq, hcount, true_and, and_true]
        omega
    · have heq : t.position = t.ptr.length := le_antisymm hle hge
      have hstep : t.step km = StepResult.finished := by
        unfold Tokenizer.step
        rw [get_char_type_none hge]
      rw [hstep]
      have hdrop0 : t.ptr.drop t.position = [] := by
        apply List.drop_eq_nil_of_le
        omega
      rw [hdrop0]
      simp [countNewlines, ← heq]

/-! ## Claims -/

/-- C1: tokenizing the source text "int main()\x7breturn 0;\x7d" with a keyword
table containing "return" and "int" produces exactly the token-kind sequence
Keyword(Int), Identifier("main"), OpenParentheses, CloseParentheses,
OpenBrace, Keyword(Return), Literal(Int(0)), Semicolon, CloseBrace, in that
order and with no other tokens. -/
theorem tokenize_int_main_example :
    ((Tokenizer.mk "int main()\x7breturn 0;\x7d".data 0 0 []).tokenize
        defaultKeywordMap).tokenKinds =
      some [TokenType.Keyword Keyword.Int, TokenType.Identifier "main",
        TokenType.OpenParentheses, TokenType.CloseParentheses,
        TokenType.OpenBrace, TokenType.Keyword Keyword.Return,
        TokenType.Literal (Value.Int 0), TokenType.Semicolon,
        TokenType.CloseBrace] := by decide

/-- C2: maximal munch for identifiers and keywords: with the cursor at an
alphabetic-or-underscore character, the recognizer consumes a run all of
whose characters are alphabetic, digit or underscore, the first character
after the run (if any) is none of those, and only the full run is looked up
in the keyword table; in particular tokenizing "return0" yields the single
token Identifier("return0"). -/
theorem identifier_maximal_munch :
    (∀ (t : Tokenizer) (km : KeywordMap),
      t.get_char_type 0 = some CharacterType.Alphabetic →
      ((t.ptr.drop t.position).take
          ((t.get_identifier km).position - t.position)).all ident_cont = true ∧
      (∀ c, t.ptr[t.position + ((t.get_identifier km).position - t.position)]? =
          some c → ident_cont c = false) ∧
      (t.get_identifier km).tokens = t.tokens ++ [Token.mk t.line t.position
        (match km (String.mk ((t.ptr.drop t.position).take
            ((t.get_identifier km).position - t.position))) with
          | some k => TokenType.Keyword k
          | none => TokenType.Identifier (String.mk ((t.ptr.drop t.position).take
              ((t.get_identifier km).position - t.position))))]) ∧
    ((Tokenizer.mk "return0".data 0 0 []).tokenize defaultKeywordMap).tokenKinds =
      some [TokenType.Identifier "return0"] := by
  refine ⟨?_, by decide⟩
  intro t km h
  rcases get_char_type_inv h with ⟨c, hgc, hcl⟩
  rw [Nat.add_zero] at hgc
  have hdrop := drop_position_cons hgc
  have hlen : (t.get_identifier km).position - t.position =
      1 + runLength ident_cont (t.ptr.drop (t.position + 1)) := by
    rw [get_identifier_eq]
    simp
  rw [hlen]
  refine ⟨?_, ?_, ?_⟩
  · rw [hdrop, Nat.add_comm 1 (runLength ident_cont (t.ptr.drop (t.position + 1))),
      List.take_succ_cons, List.all_cons]
    exact Bool.and_eq_true_iff.mpr
      ⟨alpha_ident_cont (classify_char_alpha hcl), all_take_runLength _ _⟩
  · intro c' hc'
    have h2 : (t.ptr.drop (t.position + 1))[runLength ident_cont
        (t.ptr.drop (t.position + 1))]? = some c' := by
      rw [List.getElem?_drop, Nat.add_assoc]
      exact hc'
    exact getElem?_runLength h2
  · rw [get_identifier_eq]

/-- C3: every emitted token is stamped with the cursor position and line as
they were before the recognizer advanced the cursor past the lexeme; in
particular for the input "  x" the Identifier("x") token records position 2. -/
theorem token_stamped_pre_advance :
    (∀ (t : Tokenizer) (km : KeywordMap), ∃ k,
      (t.get_identifier km).tokens = t.tokens ++ [Token.mk t.line t.position k]) ∧
    (∀ (t t' : Tokenizer), t.get_literal = some t' → ∃ k,
      t'.tokens = t.tokens ++ [Token.mk t.line t.position k]) ∧
    (∀ (t : Tokenizer) (tok : TokenType),
      (t.add_token tok).tokens = t.tokens ++ [Token.mk t.line t.position tok]) ∧
    ((Tokenizer.mk "  x".data 0 0 []).tokenize defaultKeywordMap =
      ScanResult.done (Tokenizer.mk "  x".data 3 0
        [Token.mk 0 2 (TokenType.Identifier "x")])) := by
  refine ⟨?_, ?_, ?_, by decide⟩
  · intro t km
    rw [get_identifier_eq]
    refine ⟨(match km (String.mk ((t.ptr.drop t.position).take
        (1 + runLength ident_cont (t.ptr.drop (t.position + 1))))) with
      | some keyword => TokenType.Keyword keyword
      | none => TokenType.Identifier (String.mk ((t.ptr.drop t.position).take
          (1 + runLength ident_cont (t.ptr.drop (t.position + 1)))))), ?_⟩
    simp
  · intro t t' h
    rw [get_literal_eq] at h
    cases hp : parse_i32 ((t.ptr.drop t.position).take
        (1 + runLength Char.isDigit (t.ptr.drop (t.position + 1)))) with
    | none => rw [hp] at h; cases h
    | some v =>
      rw [hp] at h
      simp only [Option.some.injEq] at h
      subst h
      exact ⟨TokenType.Literal (Value.Int v), by simp⟩
  · intro t tok
    rfl

/-- C4: the input "99999999999" (a digit run whose value exceeds the signed
32-bit range) makes the scanner abort: the source calls
parse().expect("Error parsing literal value"), which panics, rather than
returning a structured overflow error carrying line and position. -/
theorem literal_overflow_panics :
    (Tokenizer.mk "99999999999".data 0 0 []).tokenize defaultKeywordMap =
      ScanResult.panicked := by decide


/-- C5: across every scan the cursor position never decreases, each loop
iteration advances it by exactly the length of the lexeme just recognized
(or 1 for a skipped whitespace, newline or unrecognized character), and the
line counter increases by exactly the number of newline characters consumed
in that iteration and never decreases. -/
theorem cursor_monotone_line_count :
    (∀ (t : Tokenizer) (km : KeywordMap) (t' : Tokenizer),
      t.step km = StepResult.next t' →
      t'.ptr = t.ptr ∧
      t'.position = t.position + lexeme_length t ∧
      1 ≤ lexeme_length t ∧
      t'.line = t.line +
        countNewlines ((t.ptr.drop t.position).take (lexeme_length t))) ∧
    (∀ (km : KeywordMap) (fuel : ℕ) (t t' : Tokenizer),
      tokenizeFuel km fuel t = ScanResult.done t' →
      t.position ≤ t'.position ∧ t.line ≤ t'.line) := by
  constructor
  · intro t km t' h
    rcases step_next_spec h with ⟨h1, h2, h3, -, h5, -⟩
    exact ⟨h1, h2, h3, h5⟩
  · intro km fuel t t' h
    rcases tokenizeFuel_done_facts km fuel t t' h with ⟨-, h2, h3, -⟩
    exact ⟨h2, h3⟩

/-- C5 witness: the step on " " advances the position from 0 to 1 and a
completed two-step scan keeps position and line monotone. -/
theorem cursor_monotone_line_count_witness :
    ((Tokenizer.mk " ".data 1 0 []).ptr = (Tokenizer.mk " ".data 0 0 []).ptr ∧
     (Tokenizer.mk " ".data 1 0 []).position =
       (Tokenizer.mk " ".data 0 0 []).position +
         lexeme_length (Tokenizer.mk " ".data 0 0 []) ∧
     1 ≤ lexeme_length (Tokenizer.mk " ".data 0 0 []) ∧
     (Tokenizer.mk " ".data 1 0 []).line = (Tokenizer.mk " ".data 0 0 []).line +
       countNewlines (((Tokenizer.mk " ".data 0 0 []).ptr.drop
         (Tokenizer.mk " ".data 0 0 []).position).take
           (lexeme_length (Tokenizer.mk " ".data 0 0 [])))) ∧
    ((Tokenizer.mk " ".data 0 0 []).position ≤ (Tokenizer.mk " ".data 1 0 []).position ∧
     (Tokenizer.mk " ".data 0 0 []).line ≤ (Tokenizer.mk " ".data 1 0 []).line) :=
  ⟨cursor_monotone_line_count.1 (Tokenizer.mk " ".data 0 0 []) defaultKeywordMap
      (Tokenizer.mk " ".data 1 0 []) (by decide),
   cursor_monotone_line_count.2 defaultKeywordMap 2 (Tokenizer.mk " ".data 0 0 [])
      (Tokenizer.mk " ".data 1 0 []) (by decide)⟩

/-- C6: every input consisting solely of whitespace and newline characters
scans to an empty token sequence with final line counter equal to the number
of newline characters, and no scan of any input ever materializes a
Whitespace token. -/
theorem whitespace_only_inputs :
    (∀ (cs : List Char) (km : KeywordMap), cs.all is_ws_or_newline = true →
      (Tokenizer.mk cs 0 0 []).tokenize km =
        ScanResult.done (Tokenizer.mk cs cs.length (countNewlines cs) [])) ∧
    (∀ (t t' : Tokenizer) (km : KeywordMap),
      t.tokenize km = ScanResult.done t' →
      ∀ tok ∈ t'.tokens, tok ∈ t.tokens ∨ tok.token ≠ TokenType.Whitespace) := by
  constructor
  · intro cs km h
    unfold Tokenizer.tokenize
    have hrun := tokenizeFuel_ws_only km ((Tokenizer.mk cs 0 0 []).ptr.length + 1)
      (Tokenizer.mk cs 0 0 []) (by simp) (by simp) (by simpa using h)
    simpa using hrun
  · intro t t' km h
    rcases tokenizeFuel_done_facts km _ t t' h with ⟨-, -, -, rest, htok, hws⟩
    intro tok hmem
    rw [htok] at hmem
    rcases List.mem_append.mp hmem with hm | hm
    · exact Or.inl hm
    · exact Or.inr (hws tok hm)

/-- C6 witness: scanning a space followed by a line feed yields no tokens
and line count 1, and its completed scan contains no Whitespace token. -/
theorem whitespace_only_inputs_witness :
    ((Tokenizer.mk " \n".data 0 0 []).tokenize defaultKeywordMap =
      ScanResult.done (Tokenizer.mk " \n".data " \n".data.length
        (countNewlines " \n".data) [])) ∧
    (∀ tok ∈ (Tokenizer.mk " \n".data 2 1 []).tokens,
      tok ∈ (Tokenizer.mk " \n".data 0 0 []).tokens ∨
        tok.token ≠ TokenType.Whitespace) :=
  ⟨whitespace_only_inputs.1 " \n".data defaultKeywordMap (by decide),
   whitespace_only_inputs.2 (Tokenizer.mk " \n".data 0 0 [])
     (Tokenizer.mk " \n".data 2 1 []) defaultKeywordMap (by decide)⟩


/-- C7 counterexample: the single-character symbol table maps eleven
distinct characters, not nine, so the claimed "mapping from nine literal
characters" is false as stated. -/
theorem symbol_table_not_nine :
    (symbolTable.map Prod.fst).Nodup ∧
    (∀ p ∈ symbolTable, (symbolToken p.1).isSome = true) ∧
    symbolTable.length = 11 ∧ symbolTable.length ≠ 9 := by decide

/-- C7 (amended): the single-character symbol table is a fixed one-to-one
mapping from eleven literal characters to token tags, with the listed
entries, and when a character classified NonAlphabetic at the cursor has a
table entry the scanner emits exactly the corresponding token, stamped at
the pre-advance cursor, and advances by 1. -/
theorem symbol_table_eleven :
    ((symbolTable.map Prod.fst).Nodup ∧ (symbolTable.map Prod.snd).Nodup ∧
     symbolTable.length = 11 ∧
     symbolToken '(' = some TokenType.OpenParentheses ∧
     symbolToken ')' = some TokenType.CloseParentheses ∧
     symbolToken '{' = some TokenType.OpenBrace ∧
     symbolToken '}' = some TokenType.CloseBrace ∧
     symbolToken ';' = some TokenType.Semicolon ∧
     symbolToken '~' = some TokenType.Bitwise ∧
     symbolToken '!' = some TokenType.LogicalNegation ∧
     symbolToken '-' = some TokenType.Minus ∧
     symbolToken '*' = some TokenType.Multiplication ∧
     symbolToken '/' = some TokenType.Division ∧
     symbolToken '+' = some TokenType.Addition) ∧
    (∀ (t : Tokenizer) (km : KeywordMap) (c : Char) (tok : TokenType),
      t.get_char_type 0 = some (CharacterType.NonAlphabetic c) →
      symbolToken c = some tok →
      t.step km = StepResult.next { t with
        position := t.position + 1,
        tokens := t.tokens ++ [Token.mk t.line t.position tok] }) := by
  refine ⟨by decide, ?_⟩
  intro t km c tok h1 h2
  unfold Tokenizer.step
  rw [h1]
  simp only [h2]
  simp [Tokenizer.add_token]

/-- C7 witness: the scanner at an open parenthesis emits OpenParentheses at
the pre-advance cursor and advances by 1. -/
theorem symbol_table_eleven_witness :
    (Tokenizer.mk "(".data 0 0 []).step defaultKeywordMap =
      StepResult.next { Tokenizer.mk "(".data 0 0 [] with
        position := 1,
        tokens := [Token.mk 0 0 TokenType.OpenParentheses] } :=
  symbol_table_eleven.2 (Tokenizer.mk "(".data 0 0 []) defaultKeywordMap '('
    TokenType.OpenParentheses (by decide) (by decide)

/-- C8: a character classified NonAlphabetic with no entry in the symbol
table (such as an at-sign) makes the scanner advance the cursor by exactly
1 while emitting no token and no diagnostic; the scan then continues. -/
theorem unknown_nonalphabetic_skipped (t : Tokenizer) (km : KeywordMap) (c : Char)
    (h1 : t.get_char_type 0 = some (CharacterType.NonAlphabetic c))
    (h2 : symbolToken c = none) :
    t.step km = StepResult.next { t with position := t.position + 1 } := by
  unfold Tokenizer.step
  rw [h1]
  simp only [h2]

/-- C8 witness: at an at-sign the scanner advances from position 0 to 1
leaving state otherwise unchanged. -/
theorem unknown_nonalphabetic_skipped_witness :
    (Tokenizer.mk "@x".data 0 0 []).step defaultKeywordMap =
      StepResult.next (Tokenizer.mk "@x".data 1 0 []) :=
  unknown_nonalphabetic_skipped (Tokenizer.mk "@x".data 0 0 []) defaultKeywordMap
    '@' (by decide) (by decide)

/-- C9: is_unary_operator holds exactly for Minus, Bitwise and
LogicalNegation, is_binary_operator exactly for Minus, Addition,
Multiplication and Division; the conversions return the corresponding
parser operator when the predicate holds and fail loudly (modelled none,
a panic in the source) on every other token kind. -/
theorem operator_predicates_conversions :
    (∀ tt : TokenType, tt.is_unary_operator = true ↔
      (tt = TokenType.Minus ∨ tt = TokenType.Bitwise ∨
        tt = TokenType.LogicalNegation)) ∧
    (∀ tt : TokenType, tt.is_binary_operator = true ↔
      (tt = TokenType.Minus ∨ tt = TokenType.Addition ∨
        tt = TokenType.Multiplication ∨ tt = TokenType.Division)) ∧
    TokenType.to_unary_operator TokenType.Minus = some UnOp.Negation ∧
    TokenType.to_unary_operator TokenType.Bitwise = some UnOp.Bitwise ∧
    TokenType.to_unary_operator TokenType.LogicalNegation =
      some UnOp.LogicalNegation ∧
    TokenType.to_binary_operator TokenType.Minus = some BiOp.Minus ∧
    TokenType.to_binary_operator TokenType.Addition = some BiOp.Addition ∧
    TokenType.to_binary_operator TokenType.Multiplication =
      some BiOp.Multiplication ∧
    TokenType.to_binary_operator TokenType.Division = some BiOp.Division ∧
    (∀ tt : TokenType, tt.is_unary_operator = false →
      tt.to_unary_operator = none) ∧
    (∀ tt : TokenType, tt.is_binary_operator = false →
      tt.to_binary_operator = none) := by
  refine ⟨?_, ?_, rfl, rfl, rfl, rfl, rfl, rfl, rfl, ?_, ?_⟩
  · intro tt
    cases tt <;> simp [TokenType.is_unary_operator, beq_iff_eq]
  · intro tt
    cases tt <;> simp [TokenType.is_binary_operator, beq_iff_eq]
  · intro tt h
    cases tt <;> first | rfl | simp [TokenType.is_unary_operator] at h
  · intro tt h
    cases tt <;> first | rfl | simp [TokenType.is_binary_operator] at h

/-- C9 witness: a semicolon satisfies neither predicate and both
conversions fail on it. -/
theorem operator_predicates_conversions_witness :
    TokenType.to_unary_operator TokenType.Semicolon = none ∧
    TokenType.to_binary_operator TokenType.Semicolon = none :=
  ⟨operator_predicates_conversions.2.2.2.2.2.2.2.2.2.1 TokenType.Semicolon
      (by decide),
   operator_predicates_conversions.2.2.2.2.2.2.2.2.2.2 TokenType.Semicolon
      (by decide)⟩

/-- C10: tokenize terminates on every finite input: each loop iteration
strictly increases the cursor position, and running the loop on fuel
exceeding the character count never exhausts the fuel. -/
theorem tokenize_terminates :
    (∀ (t : Tokenizer) (km : KeywordMap) (t' : Tokenizer),
      t.step km = StepResult.next t' → t.position < t'.position) ∧
    (∀ (t : Tokenizer) (km : KeywordMap),
      (t.tokenize km).isOutOfFuel = false) := by
  constructor
  · intro t km t' h
    rcases step_next_spec h with ⟨-, h2, h3, -, -, -⟩
    omega
  · intro t km
    unfold Tokenizer.tokenize
    apply tokenizeFuel_ne_outOfFuel
    omega

/-- C10 witness: one step on " " strictly advances the cursor and a full
scan of "x" does not exhaust its fuel. -/
theorem tokenize_terminates_witness :
    (Tokenizer.mk " ".data 0 0 []).position <
      (Tokenizer.mk " ".data 1 0 []).position ∧
    ((Tokenizer.mk "x".data 0 0 []).tokenize defaultKeywordMap).isOutOfFuel =
      false :=
  ⟨tokenize_terminates.1 (Tokenizer.mk " ".data 0 0 []) defaultKeywordMap
      (Tokenizer.mk " ".data 1 0 []) (by decide),
   tokenize_terminates.2 (Tokenizer.mk "x".data 0 0 []) defaultKeywordMap⟩


/-- C2 witness: on the input "ab " the recognizer consumes exactly "ab"
(both characters continue an identifier, the following space does not) and
emits Identifier("ab") from the full run. -/
theorem identifier_maximal_munch_witness :
    (['a', 'b'].all ident_cont = true ∧
     ident_cont ' ' = false ∧
     ((Tokenizer.mk "ab ".data 0 0 []).get_identifier defaultKeywordMap).tokens =
       [] ++ [Token.mk 0 0 (TokenType.Identifier "ab")]) ∧
    ((Tokenizer.mk "return0".data 0 0 []).tokenize defaultKeywordMap).tokenKinds =
      some [TokenType.Identifier "return0"] :=
  ⟨⟨(identifier_maximal_munch.1 (Tokenizer.mk "ab ".data 0 0 [])
        defaultKeywordMap (by decide)).1,
    (identifier_maximal_munch.1 (Tokenizer.mk "ab ".data 0 0 [])
        defaultKeywordMap (by decide)).2.1 ' ' (by decide),
    (identifier_maximal_munch.1 (Tokenizer.mk "ab ".data 0 0 [])
        defaultKeywordMap (by decide)).2.2⟩,
   identifier_maximal_munch.2⟩

/-- C3 witness: the literal recognizer on "42" emits one token stamped at
the pre-advance cursor position 0. -/
theorem token_stamped_pre_advance_witness :
    ((Tokenizer.mk "42".data 0 0 []).get_literal =
      some (Tokenizer.mk "42".data 2 0
        [Token.mk 0 0 (TokenType.Literal (Value.Int 42))])) ∧
    (∃ k, (Tokenizer.mk "42".data 2 0
        [Token.mk 0 0 (TokenType.Literal (Value.Int 42))]).tokens =
      [] ++ [Token.mk 0 0 k]) :=
  ⟨by decide,
   token_stamped_pre_advance.2.1 (Tokenizer.mk "42".data 0 0 [])
     (Tokenizer.mk "42".data 2 0
       [Token.mk 0 0 (TokenType.Literal (Value.Int 42))]) (by decide)⟩

end SoftCompiler
